import Mathlib

/-!
Shallow embedding of the context-retrieval core of the smart-coder CLI:
the keyword extractor (packages/core/src/services/keywordExtractor.ts) and
the ContextManager (tiered memory refresh and JIT context discovery).

Strings are modelled through their character lists; the JavaScript regular
expressions of the keyword extractor are embedded as explicit left-to-right
scanners that reproduce the leftmost-match, greedy semantics of RegExp.exec
with the g flag.  Scanners that consume a variable number of characters per
step take an explicit fuel argument; every call site passes the length of
the scanned list, which is always sufficient because each step consumes at
least one character (proved as fuel-adequacy theorems below).
-/

namespace SmartCoder

/-- The JavaScript word-character class (ASCII letters, digits, underscore). -/
def isWordChar (c : Char) : Bool :=
  c.isAlpha || c.isDigit || c == '_'

/-- ASCII lowercase letter, the regex class written a-z. -/
def isLowerAZ (c : Char) : Bool :=
  'a' ≤ c && c ≤ 'z'

/-- ASCII uppercase letter, the regex class written A-Z. -/
def isUpperAZ (c : Char) : Bool :=
  'A' ≤ c && c ≤ 'Z'

/-- A single or double quote character. -/
def isQuoteChar (c : Char) : Bool :=
  c == '"' || c == '\''

/-- The path-component character class of the file-path regex: word characters,
dot and hyphen. -/
def isPathChar (c : Char) : Bool :=
  isWordChar c || c == '.' || c == '-'

/-- The STOP_WORDS set of keywordExtractor.ts, in source order. -/
def STOP_WORDS : List String :=
  ["a", "an", "the", "is", "are", "was", "were", "be", "been", "being",
   "have", "has", "had", "do", "does", "did", "will", "would", "could",
   "should", "may", "might", "shall", "can", "need", "to", "of", "in",
   "for", "on", "with", "at", "by", "from", "as", "into", "about", "like",
   "through", "after", "before", "between", "out", "above", "below", "up",
   "down", "and", "but", "or", "not", "no", "nor", "so", "yet", "both",
   "if", "then", "else", "when", "while", "where", "how", "what", "which",
   "who", "whom", "why", "this", "that", "these", "those", "it", "its",
   "i", "me", "my", "we", "us", "our", "you", "your", "he", "him", "his",
   "she", "her", "they", "them", "their", "all", "each", "every", "any",
   "some", "such", "more", "most", "other", "than", "too", "very", "just",
   "also", "now", "here", "there", "only",
   "please", "help", "want", "make", "create", "add", "change", "update",
   "modify", "fix", "implement", "write", "code", "file", "function",
   "class", "method", "new", "use", "using"]

/-- Membership test against STOP_WORDS (the JavaScript Set.has). -/
def isStopWord (s : String) : Bool :=
  STOP_WORDS.contains s

/-- The JavaScript String.toLowerCase, modelled as a per-character lowering. -/
def lowerStr (s : String) : String :=
  String.mk (s.data.map Char.toLower)

/-!  Quoted strings: the regex that matches a quote, one or more non-quote
characters, and a quote, scanned globally.  At a quote with a nonempty
non-quote run followed by another quote the engine emits the run and resumes
after the closing quote; an empty run or a missing closing quote yields no
match at that start position.  When no quote remains in the suffix no further
match is possible.  -/

/-- Global scan of the quoted-string regex, returning the captured bodies in
order.  Fuel decreases once per step; each step consumes at least one
character of the input. -/
def quotedScan : Nat → List Char → List (List Char)
  | 0, _ => []
  | _, [] => []
  | fuel + 1, c :: rest =>
    if isQuoteChar c then
      let body := rest.takeWhile (fun x => !isQuoteChar x)
      match rest.drop body.length with
      | [] => []
      | _ :: rest2 =>
        if body.isEmpty then
          quotedScan fuel rest
        else
          body :: quotedScan fuel rest2
    else
      quotedScan fuel rest

/-- The JavaScript String.trim on a character list. -/
def trimChars (l : List Char) : List Char :=
  ((l.dropWhile Char.isWhitespace).reverse.dropWhile Char.isWhitespace).reverse

/-- extractQuotedStrings of keywordExtractor.ts: captured quote bodies,
trimmed, kept when nonempty. -/
def extractQuotedStrings (query : String) : List String :=
  (quotedScan query.data.length query.data).filterMap fun body =>
    let content := trimChars body
    if content.isEmpty then none else some (String.mk content)

/-!  File paths: the regex matching an optional dotted-slash prefix, one or
more path-character runs each followed by a slash, a final path-character
run and an optional extension.  Since dot and hyphen are path characters the
pattern is equivalent to: maximal path-character runs separated by single
slashes, at least two runs, with an optional single leading slash; the greedy
engine consumes as many runs as are available and stops before a trailing
slash that is not followed by a path character.  -/

/-- Greedy parse of one or more path-character runs separated by single
slashes, returning the consumed characters and the rest.  Returns none when
no path character starts the input. -/
def moreRuns : Nat → List Char → Option (List Char × List Char)
  | 0, _ => none
  | fuel + 1, cs =>
    if (cs.takeWhile isPathChar).isEmpty then none
    else
      if (cs.drop (cs.takeWhile isPathChar).length).head? == some '/' then
        match moreRuns fuel (cs.drop (cs.takeWhile isPathChar).length).tail with
        | some (cons, rest3) =>
          some (cs.takeWhile isPathChar ++ '/' :: cons, rest3)
        | none =>
          some (cs.takeWhile isPathChar, cs.drop (cs.takeWhile isPathChar).length)
      else some (cs.takeWhile isPathChar, cs.drop (cs.takeWhile isPathChar).length)

/-- Attempt of the file-path regex at the current position: an optional
leading slash (the zero-dot case of the dotted prefix; dotted prefixes are
subsumed by the path-character runs), then slash-separated runs; the match
must contain at least one slash. -/
def matchPathAt (cs : List Char) : Option (List Char × List Char) :=
  if cs.head? == some '/' then
    match moreRuns cs.tail.length cs.tail with
    | some (cons, rest2) =>
      if cons.contains '/' then some ('/' :: cons, rest2) else none
    | none => none
  else
    match moreRuns cs.length cs with
    | some (cons, rest2) =>
      if cons.contains '/' then some (cons, rest2) else none
    | none => none

/-- Global scan of the file-path regex. -/
def pathScan : Nat → List Char → List (List Char)
  | 0, _ => []
  | _, [] => []
  | fuel + 1, c :: rest =>
    match matchPathAt (c :: rest) with
    | some (m, rest2) => m :: pathScan fuel rest2
    | none => pathScan fuel rest

/-- The replace that strips one trailing dot from a matched path. -/
def stripTrailingDot (l : List Char) : List Char :=
  match l.getLast? with
  | some '.' => l.dropLast
  | _ => l

/-- extractFilePaths of keywordExtractor.ts. -/
def extractFilePaths (query : String) : List String :=
  (pathScan query.data.length query.data).filterMap fun m =>
    let fp := stripTrailingDot m
    if fp.isEmpty then none else some (String.mk fp)

/-!  Identifiers: the camelCase regex with two alternatives (a lowercase run
followed by one or more uppercase-lowercase humps, or at least two humps),
delimited by word boundaries, and the snake-case regex matching a maximal
word-character run that contains an underscore which is neither at the start
nor in the trailing position without a word character after it.  Greedy
matching with the trailing word boundary cannot be rescued by backtracking,
because every shortened candidate still ends before a word character.  -/

/-- Greedy parse of uppercase-lowercase humps: each group is one uppercase
letter followed by a nonempty maximal lowercase run. -/
def camelGroups : Nat → List Char → List (List Char) × List Char
  | 0, cs => ([], cs)
  | fuel + 1, cs =>
    match cs with
    | c :: rest =>
      if isUpperAZ c then
        let low := rest.takeWhile isLowerAZ
        if low.isEmpty then ([], cs)
        else
          let grouped := camelGroups fuel (rest.drop low.length)
          ((c :: low) :: grouped.1, grouped.2)
      else ([], cs)
    | [] => ([], cs)

/-- The word boundary after a match: end of input or a non-word character. -/
def boundaryAfter : List Char → Bool
  | [] => true
  | c :: _ => !isWordChar c

/-- Attempt of the camelCase regex at the current position (the word boundary
before the position is checked by the caller). -/
def camelMatchAt (cs : List Char) : Option (List Char × List Char) :=
  match cs with
  | [] => none
  | c :: rest =>
    if isLowerAZ c then
      let low0 := rest.takeWhile isLowerAZ
      let rest1 := rest.drop low0.length
      let grouped := camelGroups rest1.length rest1
      if grouped.1.isEmpty then none
      else if boundaryAfter grouped.2 then
        some ((c :: low0) ++ grouped.1.flatten, grouped.2)
      else none
    else if isUpperAZ c then
      let grouped := camelGroups cs.length cs
      if grouped.1.length < 2 then none
      else if boundaryAfter grouped.2 then
        some (grouped.1.flatten, grouped.2)
      else none
    else none

/-- Global scan of the camelCase regex.  The boolean records whether a word
boundary precedes the current position; after a match it is false because a
match always ends in a lowercase letter. -/
def camelScan : Nat → Bool → List Char → List (List Char)
  | 0, _, _ => []
  | _, _, [] => []
  | fuel + 1, bOk, c :: rest =>
    if bOk then
      match camelMatchAt (c :: rest) with
      | some (m, rest2) => m :: camelScan fuel false rest2
      | none => camelScan fuel (!isWordChar c) rest
    else
      camelScan fuel (!isWordChar c) rest

/-- The replace that inserts a space between a lowercase letter and the
uppercase letter that follows it, then splits on spaces: a split at every
lower-upper adjacency. -/
def camelSplitAux : List Char → List Char → List (List Char)
  | acc, [] => [acc.reverse]
  | acc, c :: rest =>
    match acc with
    | p :: _ =>
      if isLowerAZ p && isUpperAZ c then acc.reverse :: camelSplitAux [c] rest
      else camelSplitAux (c :: acc) rest
    | [] => camelSplitAux [c] rest

/-- The filter applied to split identifier components: length above two and
not a stop word after lowering. -/
def keepIdentPart (p : List Char) : Bool :=
  p.length > 2 && !isStopWord (lowerStr (String.mk p))

/-- Maximal word-character runs of the input, in order. -/
def wordRuns : Nat → List Char → List (List Char)
  | 0, _ => []
  | _, [] => []
  | fuel + 1, c :: rest =>
    if isWordChar c then
      let run := rest.takeWhile isWordChar
      (c :: run) :: wordRuns fuel (rest.drop run.length)
    else
      wordRuns fuel rest

/-- Whether a maximal word-character run is matched by the snake-case regex:
it must contain an underscore that is preceded by at least one character
and followed by at least one character of the run. -/
def snakeOk (r : List Char) : Bool :=
  match r with
  | [] => false
  | _ :: rest => rest.dropLast.contains '_'

/-- The JavaScript String.split on underscores. -/
def splitUnderscore (l : List Char) : List (List Char) :=
  l.foldr
    (fun c acc =>
      if c == '_' then [] :: acc
      else
        match acc with
        | h :: t => (c :: h) :: t
        | [] => [[c]])
    [[]]

/-- extractIdentifiers of keywordExtractor.ts: the camelCase pass (whole word
followed by its kept components) and then the snake-case pass. -/
def extractIdentifiers (query : String) : List String :=
  let cs := query.data
  let camelWords := camelScan cs.length true cs
  let camelResults := camelWords.flatMap fun w =>
    String.mk w :: ((camelSplitAux [] w).filter keepIdentPart).map String.mk
  let snakeWords := (wordRuns cs.length cs).filter snakeOk
  let snakeResults := snakeWords.flatMap fun w =>
    String.mk w :: ((splitUnderscore w).filter keepIdentPart).map String.mk
  camelResults ++ snakeResults

/-!  General terms: quoted spans and path-like spans are removed, remaining
punctuation becomes whitespace, the text is tokenized on whitespace, and
tokens of length at most two or matching a stop word are dropped; the result
is deduplicated preserving first occurrences (the spread of a Set).  -/

/-- The replace that removes quoted spans (a quote, zero or more non-quote
characters, a quote). -/
def removeQuoted : Nat → List Char → List Char
  | 0, cs => cs
  | _, [] => []
  | fuel + 1, c :: rest =>
    if isQuoteChar c then
      let body := rest.takeWhile (fun x => !isQuoteChar x)
      match rest.drop body.length with
      | _ :: rest2 => removeQuoted fuel rest2
      | [] => c :: rest
    else
      c :: removeQuoted fuel rest

/-- The replace that removes file-path spans (same pattern as
extractFilePaths). -/
def removePaths : Nat → List Char → List Char
  | 0, cs => cs
  | _, [] => []
  | fuel + 1, c :: rest =>
    match matchPathAt (c :: rest) with
    | some (_, rest2) => removePaths fuel rest2
    | none => c :: removePaths fuel rest

/-- Characters kept by the punctuation replace: word characters, whitespace
and hyphen; everything else becomes a space. -/
def keepPunct (c : Char) : Bool :=
  isWordChar c || c.isWhitespace || c == '-'

/-- The replace that turns punctuation into spaces. -/
def punctToSpace (l : List Char) : List Char :=
  l.map fun c => if keepPunct c then c else ' '

/-- Split on whitespace runs: the maximal non-whitespace tokens in order.
The split of JavaScript also yields one empty leading token when the string
starts with whitespace; that token is discarded by the length filter that
always follows, so it is not produced here. -/
def wsTokens : Nat → List Char → List (List Char)
  | 0, _ => []
  | _, [] => []
  | fuel + 1, c :: rest =>
    if c.isWhitespace then wsTokens fuel rest
    else
      let run := rest.takeWhile (fun x => !x.isWhitespace)
      (c :: run) :: wsTokens fuel (rest.drop run.length)

/-- First-occurrence deduplication of the spread of a JavaScript Set built
from a list. -/
def dedupFirst : List String → List String → List String
  | _, [] => []
  | seen, x :: xs =>
    if seen.contains x then dedupFirst seen xs
    else x :: dedupFirst (x :: seen) xs

/-- extractGeneralTerms of keywordExtractor.ts. -/
def extractGeneralTerms (query : String) : List String :=
  let cs := query.data
  let noQuotes := removeQuoted cs.length cs
  let noPaths := removePaths noQuotes.length noQuotes
  let spaced := punctToSpace noPaths
  let toks := wsTokens spaced.length spaced
  let cleaned := ((toks.filter fun w => w.length > 2).filterMap fun w =>
    if isStopWord (lowerStr (String.mk w)) then none else some (String.mk w))
  dedupFirst [] cleaned

/-- The result record of extractKeywords. -/
structure ExtractedKeywords where
  keywords : List String
  quotedStrings : List String
  filePaths : List String
  identifiers : List String
  generalTerms : List String
deriving Repr, DecidableEq

/-- The addUnique merge loop of extractKeywords: appends a term when the
lowercase form is unseen and of length above one, recording the lowercase
form as seen. -/
def addUnique : List String → List String → List String → List String × List String
  | seen, ks, [] => (seen, ks)
  | seen, ks, t :: ts =>
    if !seen.contains (lowerStr t) && (lowerStr t).length > 1 then
      addUnique (lowerStr t :: seen) (ks ++ [t]) ts
    else
      addUnique seen ks ts

/-- extractKeywords of keywordExtractor.ts: the four category extractions and
the priority-ordered merge. -/
def extractKeywords (query : String) : ExtractedKeywords :=
  let quotedStrings := extractQuotedStrings query
  let filePaths := extractFilePaths query
  let identifiers := extractIdentifiers query
  let generalTerms := extractGeneralTerms query
  let s1 := addUnique [] [] quotedStrings
  let s2 := addUnique s1.1 s1.2 filePaths
  let s3 := addUnique s2.1 s2.2 identifiers
  let s4 := addUnique s3.1 s3.2 generalTerms
  { keywords := s4.2
    quotedStrings := quotedStrings
    filePaths := filePaths
    identifiers := identifiers
    generalTerms := generalTerms }

/-!  The ContextManager (part of the core package): tier refresh and JIT
context discovery.  The collaborators that live in memoryDiscovery.ts are
not among the sources; where a claim depends on them they are modelled from
the spec and marked as such, otherwise they are universally quantified.  -/

/-- Tier identity of a memory file. -/
inductive Tier
  | global
  | extension
  | project
deriving Repr, DecidableEq

/-- One file record as produced by the reading collaborator: the path and
the content, none when the read failed. -/
structure GeminiFileContent where
  filePath : String
  content : Option String
deriving Repr, DecidableEq

/-- The MemoryFileDetail record of benchmarkLogger.ts. -/
structure MemoryFileDetail where
  path : String
  tier : Tier
  chars : Nat
deriving Repr, DecidableEq

/-- The three tier buffers returned by the categorizing collaborator. -/
structure HierarchicalMemory where
  global : String
  extension : String
  project : String

/-- The candidate path lists discovered per tier. -/
structure DiscoveredPaths where
  global : List String
  extension : List String
  project : List String
deriving Repr, DecidableEq

/-- The ambient configuration state the ContextManager reads: the trust
flag, the debug flag, the workspace directories, the MCP instruction text
(empty when no MCP client manager is present) and the working directory. -/
structure Config where
  isTrustedFolder : Bool
  debugMode : Bool
  workspaceDirectories : List String
  mcpInstructions : String
  workingDir : String

/-- The memoryDiscovery.ts collaborators of refresh, which are not among
the sources: the filesystem as a partial map from path to content (none for
a failing read), the discovered global candidate paths, the extension
registry outcome (error when the registry throws), the project candidate
discovery over the workspace directories, and the categorizing
concatenation. -/
structure Collaborators where
  fs : String → Option String
  globalPaths : List String
  registry : Except String (List String)
  envPaths : List String → List String
  categorize : DiscoveredPaths → List GeminiFileContent → String → HierarchicalMemory

/-- The mutable state of one ContextManager instance.  The JavaScript Set of
loaded paths is an insertion-ordered duplicate-free list; its size is the
list length. -/
structure ContextManager where
  loadedPaths : List String
  globalMemory : String
  extensionMemory : String
  projectMemory : String
  memoryFileDetails : List MemoryFileDetail

/-- JavaScript Set.add on an insertion-ordered duplicate-free list. -/
def setAdd (s : List String) (x : String) : List String :=
  if s.contains x then s else s ++ [x]

/-- ContextManager.markAsLoaded: adds every given path to the loaded set. -/
def markAsLoaded (s : List String) (ps : List String) : List String :=
  ps.foldl setAdd s

/-- Array.from of a JavaScript Set built from a list: the first occurrences
in order. -/
def jsSetOfList (l : List String) : List String :=
  l.foldl setAdd []

/-- Modelled from the spec: getExtensionMemoryPaths of memoryDiscovery.ts is
not among the sources; per the spec each tier discovery is isolated and
independently fault-tolerant, so a throwing extension registry degrades to
an empty candidate set for the extension tier only. -/
def getExtensionMemoryPaths (registry : Except String (List String)) : List String :=
  match registry with
  | .ok ps => ps
  | .error _ => []

/-- ContextManager.discoverMemoryPaths: global and extension candidates are
always discovered; project candidates only when the workspace is trusted,
otherwise that tier is empty. -/
def discoverMemoryPaths (cfg : Config) (co : Collaborators) : DiscoveredPaths :=
  { global := co.globalPaths
    extension := getExtensionMemoryPaths co.registry
    project :=
      if cfg.isTrustedFolder then co.envPaths cfg.workspaceDirectories else [] }

/-- Modelled from the spec: readGeminiMdFiles of memoryDiscovery.ts is not
among the sources; per the spec every requested path is read and a failed
read yields a null content marker for that path without aborting the batch,
so the result has one record per requested path, in order. -/
def readGeminiMdFiles (fs : String → Option String) (paths : List String) :
    List GeminiFileContent :=
  paths.map fun p => { filePath := p, content := fs p }

/-- ContextManager.loadMemoryContents: deduplicates the union of the tier
candidate lists, reads every unique path, marks the successfully read paths
as loaded, and returns the contents.  The JavaScript Map keyed by path is
represented by the record list in insertion order; its keys are unique
because the path list was deduplicated.  The console logging of the source
is a side effect without influence on the state and is not modelled. -/
def loadMemoryContents (fs : String → Option String) (cm : ContextManager)
    (paths : DiscoveredPaths) : ContextManager × List GeminiFileContent :=
  let allPaths := jsSetOfList (paths.global ++ paths.extension ++ paths.project)
  let allContents := readGeminiMdFiles fs allPaths
  let loadedFiles := allContents.filter fun c => c.content.isSome
  let filePaths := loadedFiles.map fun c => c.filePath
  ({ cm with loadedPaths := markAsLoaded cm.loadedPaths filePaths }, allContents)

/-- ContextManager.buildMemoryFileDetails: walks the contents map, skips
records of failed reads, and attributes each loaded file to the global set
first, then to the extension set, and to the project tier otherwise. -/
def buildMemoryFileDetails (paths : DiscoveredPaths)
    (contents : List GeminiFileContent) : List MemoryFileDetail :=
  contents.filterMap fun c =>
    match c.content with
    | none => none
    | some text =>
      let tier :=
        if paths.global.contains c.filePath then Tier.global
        else if paths.extension.contains c.filePath then Tier.extension
        else Tier.project
      some { path := c.filePath, tier := tier, chars := text.length }

/-- The JavaScript filter(Boolean).join of strings with a blank line. -/
def joinTruthy (l : List String) : String :=
  String.intercalate "\n\n" (l.filter fun s => s ≠ "")

/-- ContextManager.categorizeMemoryContents: publishes the tier buffers (the
JavaScript or-with-empty-string on the buffers is the identity on strings);
the MCP instruction text joins the project buffer, and the project buffer is
forced empty for an untrusted workspace. -/
def categorizeMemoryContents (cfg : Config) (co : Collaborators)
    (cm : ContextManager) (paths : DiscoveredPaths)
    (contents : List GeminiFileContent) : ContextManager :=
  let hier := co.categorize paths contents cfg.workingDir
  let projectWithMcp := joinTruthy [hier.project, cfg.mcpInstructions.trimLeft]
  { cm with
    globalMemory := hier.global
    extensionMemory := hier.extension
    projectMemory := if cfg.isTrustedFolder then projectWithMcp else "" }

/-- ContextManager.refresh: clears the loaded-path set and the detail list,
discovers the tier candidates, loads the contents, builds the detail list
and publishes the tier buffers.  The memory-changed event emission is a side
effect without influence on the state and is not modelled. -/
def ContextManager.refresh (cm : ContextManager) (cfg : Config)
    (co : Collaborators) : ContextManager :=
  let cm0 := { cm with loadedPaths := [], memoryFileDetails := [] }
  let paths := discoverMemoryPaths cfg co
  let loaded := loadMemoryContents co.fs cm0 paths
  let cm2 := { loaded.1 with memoryFileDetails := buildMemoryFileDetails paths loaded.2 }
  categorizeMemoryContents cfg co cm2 paths loaded.2

/-- ContextManager.getEnvironmentMemory returns the project tier buffer. -/
def ContextManager.getEnvironmentMemory (cm : ContextManager) : String :=
  cm.projectMemory

/-- Modelled from the spec: the parent directory of a path, the prefix
before the last slash; a path without a slash is its own parent and plays
the role of a filesystem root. -/
def parentDir (p : String) : String :=
  match p.data.reverse.dropWhile (fun c => c ≠ '/') with
  | _ :: rest => String.mk rest.reverse
  | [] => p

/-- The hop bound of the JIT traversal; the spec requires an explicit bound
and recommends a fixed ceiling such as 32. -/
def JIT_HOP_BOUND : Nat := 32

/-- Modelled from the spec: the upward walk of the JIT traversal visits the
directory chain from the start directory upward and stops after a trusted
root, at a filesystem root, or when the hop bound is exhausted. -/
def jitWalk : Nat → String → List String → List String
  | 0, _, _ => []
  | fuel + 1, dir, roots =>
    if roots.contains dir || parentDir dir == dir then [dir]
    else dir :: jitWalk fuel (parentDir dir) roots

/-- Modelled from the spec: loadJitSubdirectoryMemory of memoryDiscovery.ts
is not among the sources; per the spec the walk starts at the directory
containing the accessed path, checks each visited directory for its memory
file, skips paths already in the loaded set, reads the remaining ones, and
returns the newly loaded files in walk order. -/
def loadJitSubdirectoryMemory (fs : String → Option String)
    (accessedPath : String) (trustedRoots : List String)
    (loadedPaths : List String) : List (String × String) :=
  (jitWalk JIT_HOP_BOUND (parentDir accessedPath) trustedRoots).filterMap fun d =>
    let mf := d ++ "/GEMINI.md"
    if loadedPaths.contains mf then none
    else (fs mf).map fun c => (mf, c)

/-- Modelled from the spec: concatenateInstructions of memoryDiscovery.ts is
not among the sources; per the spec the contents are concatenated with a
provenance header per file. -/
def concatenateInstructions (files : List GeminiFileContent)
    (_workingDir : String) : String :=
  String.intercalate "\n\n" (files.map fun f =>
    "--- Context from: " ++ f.filePath ++ " ---\n" ++ f.content.getD "")

/-- ContextManager.discoverContext: returns empty content immediately for an
untrusted workspace; otherwise loads the unseen memory files along the
upward walk, marks them as loaded and returns their concatenation, or empty
content when nothing new was found. -/
def ContextManager.discoverContext (cm : ContextManager) (cfg : Config)
    (fs : String → Option String) (accessedPath : String)
    (trustedRoots : List String) : String × ContextManager :=
  if !cfg.isTrustedFolder then ("", cm)
  else
    let result := loadJitSubdirectoryMemory fs accessedPath trustedRoots cm.loadedPaths
    if result.length == 0 then ("", cm)
    else
      let cm2 := { cm with
        loadedPaths := markAsLoaded cm.loadedPaths (result.map Prod.fst) }
      (concatenateInstructions
        (result.map fun f => { filePath := f.1, content := some f.2 })
        cfg.workingDir, cm2)

/-!  Lemmas about the Set model: insertion-ordered duplicate-free lists.  -/

theorem mem_setAdd {s : List String} {x y : String} :
    y ∈ setAdd s x ↔ y ∈ s ∨ y = x := by
  unfold setAdd
  split
  · rename_i h
    constructor
    · exact Or.inl
    · rintro (hy | rfl)
      · exact hy
      · simpa using h
  · simp [List.mem_append]

theorem mem_foldl_setAdd (ps : List String) (s : List String) (x : String) :
    x ∈ ps.foldl setAdd s ↔ x ∈ s ∨ x ∈ ps := by
  induction ps generalizing s with
  | nil => simp
  | cons p ps ih =>
    simp only [List.foldl_cons, ih, mem_setAdd, List.mem_cons]
    tauto

theorem nodup_foldl_setAdd (ps : List String) (s : List String) (hs : s.Nodup) :
    (ps.foldl setAdd s).Nodup := by
  induction ps generalizing s with
  | nil => exact hs
  | cons p ps ih =>
    refine ih _ ?_
    unfold setAdd
    split
    · exact hs
    · rename_i h
      have hp : p ∉ s := by simpa using h
      simp [List.nodup_append, hs, hp]

theorem mem_markAsLoaded {s ps : List String} {x : String} :
    x ∈ markAsLoaded s ps ↔ x ∈ s ∨ x ∈ ps :=
  mem_foldl_setAdd ps s x

theorem mem_jsSetOfList {l : List String} {x : String} :
    x ∈ jsSetOfList l ↔ x ∈ l := by
  simpa using mem_foldl_setAdd l [] x

theorem nodup_jsSetOfList (l : List String) : (jsSetOfList l).Nodup :=
  nodup_foldl_setAdd l [] List.nodup_nil

/-!  Sample values used by witnesses.  -/

/-- A sample untrusted configuration. -/
def cfgUntrusted : Config :=
  { isTrustedFolder := false, debugMode := false, workspaceDirectories := ["/w"]
    mcpInstructions := "mcp text", workingDir := "/w" }

/-- A sample trusted configuration. -/
def cfgTrusted : Config :=
  { isTrustedFolder := true, debugMode := false, workspaceDirectories := ["/w"]
    mcpInstructions := "mcp text", workingDir := "/w" }

/-- A sample filesystem with a single readable memory file. -/
def sampleFs : String → Option String :=
  fun q => if q == "/w/GEMINI.md" then some "project rules" else none

/-- Sample collaborators over the sample filesystem. -/
def sampleCollab : Collaborators :=
  { fs := sampleFs
    globalPaths := ["/g/GEMINI.md"]
    registry := .ok ["/e/GEMINI.md"]
    envPaths := fun ds => ds.map fun d => d ++ "/GEMINI.md"
    categorize := fun _ _ _ => { global := "", extension := "", project := "" } }

/-- A fresh manager state. -/
def emptyCM : ContextManager :=
  { loadedPaths := [], globalMemory := "", extensionMemory := ""
    projectMemory := "", memoryFileDetails := [] }

/-- Claim C1: with the workspace-trust flag false, refresh publishes an
empty project tier buffer (getEnvironmentMemory returns the empty string, so
no MCP instruction text is appended either), tier discovery produces no
project or workspace candidate paths, and discoverContext returns the empty
string for every accessed path while leaving the manager state, in
particular the loaded-path set, unchanged. -/
theorem c1_trust_gate (cfg : Config) (h : cfg.isTrustedFolder = false)
    (co : Collaborators) (cm : ContextManager) :
    (cm.refresh cfg co).getEnvironmentMemory = "" ∧
    (discoverMemoryPaths cfg co).project = [] ∧
    (∀ (fs : String → Option String) (p : String) (roots : List String),
      cm.discoverContext cfg fs p roots = ("", cm)) := by
  refine ⟨?_, ?_, ?_⟩
  · simp [ContextManager.refresh, ContextManager.getEnvironmentMemory,
      categorizeMemoryContents, h]
  · simp [discoverMemoryPaths, h]
  · intro fs p roots
    simp [ContextManager.discoverContext, h]

/-- Witness for C1 at a concrete untrusted configuration. -/
theorem c1_trust_gate_witness :
    (emptyCM.refresh cfgUntrusted sampleCollab).getEnvironmentMemory = "" ∧
    (discoverMemoryPaths cfgUntrusted sampleCollab).project = [] ∧
    (∀ (fs : String → Option String) (p : String) (roots : List String),
      emptyCM.discoverContext cfgUntrusted fs p roots = ("", emptyCM)) :=
  c1_trust_gate cfgUntrusted rfl sampleCollab emptyCM

/-- Claim C3: a throwing extension registry does not abort the discovery of
the other tiers: the extension tier degrades to an empty candidate set, the
global and project candidates are unchanged, and the whole refresh behaves
exactly as a refresh with an empty extension tier, so the other tiers are
still loaded and categorized. -/
theorem c3_tier_isolation (cfg : Config) (co : Collaborators) (e : String)
    (cm : ContextManager) :
    (discoverMemoryPaths cfg { co with registry := .error e }).extension = [] ∧
    (discoverMemoryPaths cfg { co with registry := .error e }).global
      = (discoverMemoryPaths cfg co).global ∧
    (discoverMemoryPaths cfg { co with registry := .error e }).project
      = (discoverMemoryPaths cfg co).project ∧
    cm.refresh cfg { co with registry := .error e }
      = cm.refresh cfg { co with registry := .ok [] } :=
  ⟨rfl, rfl, rfl, rfl⟩

/-- After marking the files found by one JIT pass as loaded, a second pass
over the same accessed path finds nothing: every visited directory either
had its memory file loaded before, loaded it in the first pass, or its read
fails again. -/
theorem loadJit_again_nil (fs : String → Option String) (p : String)
    (roots : List String) (loaded : List String) :
    loadJitSubdirectoryMemory fs p roots
      (markAsLoaded loaded
        ((loadJitSubdirectoryMemory fs p roots loaded).map Prod.fst)) = [] := by
  apply List.filterMap_eq_nil_iff.mpr
  intro d hd
  by_cases hload : (d ++ "/GEMINI.md")
      ∈ markAsLoaded loaded ((loadJitSubdirectoryMemory fs p roots loaded).map Prod.fst)
  · simp [hload]
  · rw [mem_markAsLoaded] at hload
    push_neg at hload
    obtain ⟨h1, h2⟩ := hload
    cases hfs : fs (d ++ "/GEMINI.md") with
    | none => simp [hfs]
    | some c =>
      exfalso
      apply h2
      refine List.mem_map.mpr ⟨(d ++ "/GEMINI.md", c), ?_, rfl⟩
      unfold loadJitSubdirectoryMemory
      exact List.mem_filterMap.mpr ⟨d, hd, by simp [h1, hfs]⟩

/-- For a trusted workspace, a call whose walk finds nothing new returns the
empty string and does not change the state. -/
theorem discoverContext_nothing_new (cfg : Config) (htr : cfg.isTrustedFolder = true)
    (fs : String → Option String) (cm : ContextManager) (p : String)
    (roots : List String)
    (h : loadJitSubdirectoryMemory fs p roots cm.loadedPaths = []) :
    cm.discoverContext cfg fs p roots = ("", cm) := by
  simp [ContextManager.discoverContext, htr, h]

/-- Claim C2: discoverContext only grows the loaded-path set, and a second
call with the same accessed path and roots, with no refresh in between,
returns the empty string and leaves the size of the loaded-path set
unchanged. -/
theorem c2_jit_idempotent (cfg : Config) (fs : String → Option String)
    (cm : ContextManager) (p : String) (roots : List String) :
    (∀ x ∈ cm.loadedPaths, x ∈ ((cm.discoverContext cfg fs p roots).2).loadedPaths) ∧
    (((cm.discoverContext cfg fs p roots).2).discoverContext cfg fs p roots).1 = "" ∧
    ((((cm.discoverContext cfg fs p roots).2).discoverContext cfg fs p roots).2).loadedPaths.length
      = ((cm.discoverContext cfg fs p roots).2).loadedPaths.length := by
  cases htr : cfg.isTrustedFolder with
  | false =>
    simp [ContextManager.discoverContext, htr]
  | true =>
    by_cases hr : loadJitSubdirectoryMemory fs p roots cm.loadedPaths = []
    · simp [ContextManager.discoverContext, htr, hr]
    · have hlen : ((loadJitSubdirectoryMemory fs p roots cm.loadedPaths).length == 0)
          = false := by
        simp only [beq_eq_false_iff_ne, ne_eq, List.length_eq_zero]
        exact hr
      have hfirst : ((cm.discoverContext cfg fs p roots).2).loadedPaths
          = markAsLoaded cm.loadedPaths
              ((loadJitSubdirectoryMemory fs p roots cm.loadedPaths).map Prod.fst) := by
        simp [ContextManager.discoverContext, htr, hlen]
      have hsecond : loadJitSubdirectoryMemory fs p roots
          ((cm.discoverContext cfg fs p roots).2).loadedPaths = [] := by
        rw [hfirst]
        exact loadJit_again_nil fs p roots cm.loadedPaths
      have hcall2 := discoverContext_nothing_new cfg htr fs
        (cm.discoverContext cfg fs p roots).2 p roots hsecond
      refine ⟨?_, ?_, ?_⟩
      · intro x hx
        rw [hfirst]
        exact mem_markAsLoaded.mpr (Or.inl hx)
      · rw [hcall2]
      · rw [hcall2]

/-!  Refresh characterizations used by C4 and C5.  -/

/-- The paths of the built detail list form a sublist of the paths of the
contents walked, so detail paths inherit the absence of duplicates. -/
theorem buildDetails_paths_sublist (P : DiscoveredPaths)
    (cs : List GeminiFileContent) :
    ((buildMemoryFileDetails P cs).map MemoryFileDetail.path).Sublist
      (cs.map GeminiFileContent.filePath) := by
  induction cs with
  | nil => simp [buildMemoryFileDetails]
  | cons c cs ih =>
    simp only [buildMemoryFileDetails, List.filterMap_cons, List.map_cons] at *
    cases hc : c.content with
    | none => exact ih.cons c.filePath
    | some t => simpa using ih.cons₂ c.filePath

/-- Every detail record carries the path of its source record and the tier
computed by the global-first, extension-second membership test. -/
theorem mem_buildDetails (P : DiscoveredPaths) (cs : List GeminiFileContent)
    (d : MemoryFileDetail) (hd : d ∈ buildMemoryFileDetails P cs) :
    ∃ c ∈ cs, ∃ text, c.content = some text ∧ d.path = c.filePath
      ∧ d.chars = text.length
      ∧ d.tier = (if c.filePath ∈ P.global then Tier.global
          else if c.filePath ∈ P.extension then Tier.extension
          else Tier.project) := by
  obtain ⟨c, hc, heq⟩ := List.mem_filterMap.mp hd
  refine ⟨c, hc, ?_⟩
  cases hcc : c.content with
  | none => simp [hcc] at heq
  | some t =>
    refine ⟨t, rfl, ?_⟩
    simp only [hcc] at heq
    cases heq
    refine ⟨rfl, rfl, ?_⟩
    by_cases hg : c.filePath ∈ P.global
    · simp [hg]
    · by_cases he : c.filePath ∈ P.extension
      · simp [hg, he]
      · simp [hg, he]

/-- The loaded-path set after refresh holds exactly the union paths whose
read succeeded, and the details are built from the deduplicated union. -/
theorem refresh_loadedPaths (cfg : Config) (co : Collaborators)
    (cm : ContextManager) :
    (cm.refresh cfg co).loadedPaths
      = markAsLoaded []
          ((((jsSetOfList ((discoverMemoryPaths cfg co).global
              ++ (discoverMemoryPaths cfg co).extension
              ++ (discoverMemoryPaths cfg co).project)).map
                (fun p => ({ filePath := p, content := co.fs p } : GeminiFileContent))).filter
              (fun c => c.content.isSome)).map GeminiFileContent.filePath)
    ∧ (cm.refresh cfg co).memoryFileDetails
      = buildMemoryFileDetails (discoverMemoryPaths cfg co)
          ((jsSetOfList ((discoverMemoryPaths cfg co).global
              ++ (discoverMemoryPaths cfg co).extension
              ++ (discoverMemoryPaths cfg co).project)).map
            (fun p => ({ filePath := p, content := co.fs p } : GeminiFileContent))) := by
  constructor <;>
    simp [ContextManager.refresh, loadMemoryContents, categorizeMemoryContents,
      readGeminiMdFiles]

/-- Claim C4: the union of the tier candidate lists is deduplicated before
the batch read (the read list is duplicate-free yet still holds exactly the
union), the built detail list holds at most one record per path, and every
record is attributed to the highest-priority tier that names its path, with
priority global over extension over project. -/
theorem c4_dedup_tier_priority (cfg : Config) (co : Collaborators)
    (cm : ContextManager) :
    (jsSetOfList ((discoverMemoryPaths cfg co).global
      ++ (discoverMemoryPaths cfg co).extension
      ++ (discoverMemoryPaths cfg co).project)).Nodup ∧
    (∀ x, x ∈ jsSetOfList ((discoverMemoryPaths cfg co).global
        ++ (discoverMemoryPaths cfg co).extension
        ++ (discoverMemoryPaths cfg co).project)
      ↔ x ∈ (discoverMemoryPaths cfg co).global
        ∨ x ∈ (discoverMemoryPaths cfg co).extension
        ∨ x ∈ (discoverMemoryPaths cfg co).project) ∧
    ((cm.refresh cfg co).memoryFileDetails.map MemoryFileDetail.path).Nodup ∧
    (∀ d ∈ (cm.refresh cfg co).memoryFileDetails,
      d.tier = (if d.path ∈ (discoverMemoryPaths cfg co).global then Tier.global
        else if d.path ∈ (discoverMemoryPaths cfg co).extension then Tier.extension
        else Tier.project)) := by
  refine ⟨nodup_jsSetOfList _, ?_, ?_, ?_⟩
  · intro x
    rw [mem_jsSetOfList]
    simp [List.mem_append]
  · rw [(refresh_loadedPaths cfg co cm).2]
    have hsub := buildDetails_paths_sublist (discoverMemoryPaths cfg co)
      ((jsSetOfList ((discoverMemoryPaths cfg co).global
          ++ (discoverMemoryPaths cfg co).extension
          ++ (discoverMemoryPaths cfg co).project)).map
        fun p => ({ filePath := p, content := co.fs p } : GeminiFileContent))
    rw [List.map_map] at hsub
    have hmap : ((jsSetOfList ((discoverMemoryPaths cfg co).global
          ++ (discoverMemoryPaths cfg co).extension
          ++ (discoverMemoryPaths cfg co).project)).map
        (GeminiFileContent.filePath ∘
          fun p => ({ filePath := p, content := co.fs p } : GeminiFileContent)))
        = jsSetOfList ((discoverMemoryPaths cfg co).global
          ++ (discoverMemoryPaths cfg co).extension
          ++ (discoverMemoryPaths cfg co).project) := by
      exact List.map_id' _
    rw [hmap] at hsub
    exact List.Nodup.sublist hsub (nodup_jsSetOfList _)
  · intro d hd
    rw [(refresh_loadedPaths cfg co cm).2] at hd
    obtain ⟨c, _, text, _, hpath, _, htier⟩ := mem_buildDetails _ _ d hd
    rw [htier, hpath]

/-- Witness theorem companion values: a path whose read fails. -/
def missingPath : String := "/missing/GEMINI.md"

/-- Claim C5: a path whose read fails is neither marked as loaded nor given
a detail record, while every path of the union whose read succeeds is still
loaded and recorded, so one failing read does not abort the batch. -/
theorem c5_failed_read (cfg : Config) (co : Collaborators) (cm : ContextManager)
    (p : String) (h : co.fs p = none) :
    p ∉ (cm.refresh cfg co).loadedPaths ∧
    (∀ d ∈ (cm.refresh cfg co).memoryFileDetails, d.path ≠ p) ∧
    (∀ q c, co.fs q = some c →
      (q ∈ (discoverMemoryPaths cfg co).global
        ∨ q ∈ (discoverMemoryPaths cfg co).extension
        ∨ q ∈ (discoverMemoryPaths cfg co).project) →
      q ∈ (cm.refresh cfg co).loadedPaths ∧
      ∃ d ∈ (cm.refresh cfg co).memoryFileDetails, d.path = q ∧ d.chars = c.length) := by
  refine ⟨?_, ?_, ?_⟩
  · rw [(refresh_loadedPaths cfg co cm).1]
    intro hp
    rw [mem_markAsLoaded] at hp
    rcases hp with hp | hp
    · simp at hp
    · obtain ⟨c, hc, hcp⟩ := List.mem_map.mp hp
      obtain ⟨hc1, hc2⟩ := List.mem_filter.mp hc
      obtain ⟨q, _, rfl⟩ := List.mem_map.mp hc1
      simp only [] at hcp
      subst hcp
      simp [h] at hc2
  · intro d hd
    rw [(refresh_loadedPaths cfg co cm).2] at hd
    obtain ⟨c, hc, text, htext, hpath, _, _⟩ := mem_buildDetails _ _ d hd
    obtain ⟨q, _, rfl⟩ := List.mem_map.mp hc
    intro heq
    rw [hpath] at heq
    simp only [] at heq htext
    rw [heq, h] at htext
    exact Option.noConfusion htext
  · intro q c hfs hmem
    have hu : q ∈ jsSetOfList ((discoverMemoryPaths cfg co).global
        ++ (discoverMemoryPaths cfg co).extension
        ++ (discoverMemoryPaths cfg co).project) := by
      rw [mem_jsSetOfList]
      simp only [List.mem_append]
      tauto
    constructor
    · rw [(refresh_loadedPaths cfg co cm).1]
      rw [mem_markAsLoaded]
      refine Or.inr (List.mem_map.mpr ⟨{ filePath := q, content := co.fs q }, ?_, rfl⟩)
      refine List.mem_filter.mpr ⟨List.mem_map.mpr ⟨q, hu, rfl⟩, by simp [hfs]⟩
    · rw [(refresh_loadedPaths cfg co cm).2]
      refine ⟨⟨q,
          (if (discoverMemoryPaths cfg co).global.contains q then Tier.global
            else (if (discoverMemoryPaths cfg co).extension.contains q then Tier.extension
              else Tier.project)),
          c.length⟩, ?_, rfl, rfl⟩
      refine List.mem_filterMap.mpr ⟨{ filePath := q, content := co.fs q }, ?_, ?_⟩
      · exact List.mem_map.mpr ⟨q, hu, rfl⟩
      · simp [hfs]

/-- Witness for C5: the sample filesystem fails to read the missing path. -/
theorem c5_failed_read_witness :
    missingPath ∉ (emptyCM.refresh cfgTrusted sampleCollab).loadedPaths ∧
    (∀ d ∈ (emptyCM.refresh cfgTrusted sampleCollab).memoryFileDetails,
      d.path ≠ missingPath) ∧
    (∀ q c, sampleCollab.fs q = some c →
      (q ∈ (discoverMemoryPaths cfgTrusted sampleCollab).global
        ∨ q ∈ (discoverMemoryPaths cfgTrusted sampleCollab).extension
        ∨ q ∈ (discoverMemoryPaths cfgTrusted sampleCollab).project) →
      q ∈ (emptyCM.refresh cfgTrusted sampleCollab).loadedPaths ∧
      ∃ d ∈ (emptyCM.refresh cfgTrusted sampleCollab).memoryFileDetails,
        d.path = q ∧ d.chars = c.length) :=
  c5_failed_read cfgTrusted sampleCollab emptyCM missingPath rfl

/-!  Fuel adequacy.  Every fueled scanner is called with the length of its
input as fuel; the lemmas below show a successful inner parse consumes at
least one character, so that fuel never runs out and the scanners are total
on every input.  -/

/-- A successful slash-separated-runs parse consumes at least one
character. -/
theorem moreRuns_consumes (f : Nat) : ∀ (cs cons rest : List Char),
    moreRuns f cs = some (cons, rest) → rest.length < cs.length := by
  induction f with
  | zero => intro cs cons rest h; simp [moreRuns] at h
  | succ f ih =>
    intro cs cons rest h
    simp only [moreRuns] at h
    by_cases hrun : (cs.takeWhile isPathChar).isEmpty
    · rw [if_pos hrun] at h
      exact absurd h (by simp)
    · rw [if_neg hrun] at h
      have hlen : 1 ≤ (cs.takeWhile isPathChar).length := by
        cases hh : cs.takeWhile isPathChar with
        | nil => rw [hh] at hrun; simp at hrun
        | cons a l => simp [hh]
      have htw : (cs.takeWhile isPathChar).length ≤ cs.length :=
        (List.takeWhile_sublist isPathChar).length_le
      have hdl : (cs.drop (cs.takeWhile isPathChar).length).length
          = cs.length - (cs.takeWhile isPathChar).length := List.length_drop _ _
      by_cases hhead : ((cs.drop (cs.takeWhile isPathChar).length).head? == some '/')
      · rw [if_pos hhead] at h
        cases hmr : moreRuns f (cs.drop (cs.takeWhile isPathChar).length).tail with
        | some pr =>
          obtain ⟨cons3, rest3⟩ := pr
          rw [hmr] at h
          simp only [Option.some.injEq, Prod.mk.injEq] at h
          obtain ⟨_, hr⟩ := h
          subst hr
          have hrec := ih _ cons3 rest3 hmr
          have htl : ((cs.drop (cs.takeWhile isPathChar).length).tail).length
              = (cs.drop (cs.takeWhile isPathChar).length).length - 1 :=
            List.length_tail _
          omega
        | none =>
          rw [hmr] at h
          simp only [Option.some.injEq, Prod.mk.injEq] at h
          obtain ⟨_, hr⟩ := h
          subst hr
          omega
      · rw [if_neg hhead] at h
        simp only [Option.some.injEq, Prod.mk.injEq] at h
        obtain ⟨_, hr⟩ := h
        subst hr
        omega

/-- A successful file-path match consumes at least one character. -/
theorem matchPathAt_consumes : ∀ (cs m rest2 : List Char),
    matchPathAt cs = some (m, rest2) → rest2.length < cs.length := by
  intro cs m rest2 h
  rw [matchPathAt] at h
  by_cases hhead : (cs.head? == some '/')
  · rw [if_pos hhead] at h
    have hne : cs ≠ [] := by
      intro hnil; rw [hnil] at hhead; simp at hhead
    cases hmr : moreRuns cs.tail.length cs.tail with
    | some pr =>
      obtain ⟨cons3, rest3⟩ := pr
      rw [hmr] at h
      simp only [] at h
      by_cases hsl : cons3.contains '/'
      · rw [if_pos hsl] at h
        simp only [Option.some.injEq, Prod.mk.injEq] at h
        obtain ⟨_, hr⟩ := h
        subst hr
        have hrec := moreRuns_consumes cs.tail.length cs.tail cons3 rest3 hmr
        have htl : cs.tail.length = cs.length - 1 := List.length_tail _
        have hpos : 1 ≤ cs.length := by
          cases cs with
          | nil => exact absurd rfl hne
          | cons a l => simp
        omega
      · rw [if_neg hsl] at h
        exact absurd h (by simp)
    | none =>
      rw [hmr] at h
      exact absurd h (by simp)
  · rw [if_neg hhead] at h
    cases hmr : moreRuns cs.length cs with
    | some pr =>
      obtain ⟨cons3, rest3⟩ := pr
      rw [hmr] at h
      simp only [] at h
      by_cases hsl : cons3.contains '/'
      · rw [if_pos hsl] at h
        simp only [Option.some.injEq, Prod.mk.injEq] at h
        obtain ⟨_, hr⟩ := h
        subst hr
        exact moreRuns_consumes cs.length cs cons3 rest3 hmr
      · rw [if_neg hsl] at h
        exact absurd h (by simp)
    | none =>
      rw [hmr] at h
      exact absurd h (by simp)

/-- When the hump parse finds no group the rest is the whole input; when it
finds a group it consumes at least one character. -/
theorem camelGroups_spec (f : Nat) : ∀ cs : List Char,
    ((camelGroups f cs).1 = [] → (camelGroups f cs).2 = cs) ∧
    ((camelGroups f cs).1 ≠ [] → (camelGroups f cs).2.length < cs.length) := by
  induction f with
  | zero => intro cs; simp [camelGroups]
  | succ f ih =>
    intro cs
    cases cs with
    | nil => simp [camelGroups]
    | cons c rest =>
      simp only [camelGroups]
      by_cases hu : isUpperAZ c
      · rw [if_pos hu]
        by_cases hl : (rest.takeWhile isLowerAZ).isEmpty
        · rw [if_pos hl]
          simp
        · rw [if_neg hl]
          refine ⟨fun hcontra => absurd hcontra (by simp), fun _ => ?_⟩
          have hlow : 1 ≤ (rest.takeWhile isLowerAZ).length := by
            cases hh : rest.takeWhile isLowerAZ with
            | nil => rw [hh] at hl; simp at hl
            | cons a l => simp [hh]
          have htw : (rest.takeWhile isLowerAZ).length ≤ rest.length :=
            (List.takeWhile_sublist isLowerAZ).length_le
          have hdl : (rest.drop (rest.takeWhile isLowerAZ).length).length
              = rest.length - (rest.takeWhile isLowerAZ).length := List.length_drop _ _
          by_cases hnil :
              (camelGroups f (rest.drop (rest.takeWhile isLowerAZ).length)).1 = []
          · have h2 := (ih _).1 hnil
            simp only [h2]
            simp only [List.length_cons]
            omega
          · have hlt := (ih _).2 hnil
            simp only [List.length_cons]
            omega
      · rw [if_neg hu]
        simp

/-- A successful camelCase match consumes at least one character. -/
theorem camelMatchAt_consumes : ∀ (cs m rest2 : List Char),
    camelMatchAt cs = some (m, rest2) → rest2.length < cs.length := by
  intro cs m rest2 h
  cases cs with
  | nil => simp [camelMatchAt] at h
  | cons c rest =>
    simp only [camelMatchAt] at h
    by_cases hlc : isLowerAZ c
    · rw [if_pos hlc] at h
      by_cases hg : (camelGroups (rest.drop (rest.takeWhile isLowerAZ).length).length
          (rest.drop (rest.takeWhile isLowerAZ).length)).1.isEmpty
      · rw [if_pos hg] at h
        exact absurd h (by simp)
      · rw [if_neg hg] at h
        by_cases hb : boundaryAfter (camelGroups
            (rest.drop (rest.takeWhile isLowerAZ).length).length
            (rest.drop (rest.takeWhile isLowerAZ).length)).2
        · rw [if_pos hb] at h
          simp only [Option.some.injEq, Prod.mk.injEq] at h
          obtain ⟨_, hr⟩ := h
          subst hr
          have hgs : (camelGroups (rest.drop (rest.takeWhile isLowerAZ).length).length
              (rest.drop (rest.takeWhile isLowerAZ).length)).1 ≠ [] := by
            intro hnil; rw [hnil] at hg; simp at hg
          have hlt := (camelGroups_spec (rest.drop (rest.takeWhile isLowerAZ).length).length
            (rest.drop (rest.takeWhile isLowerAZ).length)).2 hgs
          have htw : (rest.takeWhile isLowerAZ).length ≤ rest.length :=
            (List.takeWhile_sublist isLowerAZ).length_le
          have hdl : (rest.drop (rest.takeWhile isLowerAZ).length).length
              = rest.length - (rest.takeWhile isLowerAZ).length := List.length_drop _ _
          simp only [List.length_cons]
          omega
        · rw [if_neg hb] at h
          exact absurd h (by simp)
    · rw [if_neg hlc] at h
      by_cases huc : isUpperAZ c
      · rw [if_pos huc] at h
        by_cases h2 : (camelGroups (c :: rest).length (c :: rest)).1.length < 2
        · rw [if_pos h2] at h
          exact absurd h (by simp)
        · rw [if_neg h2] at h
          by_cases hb : boundaryAfter (camelGroups (c :: rest).length (c :: rest)).2
          · rw [if_pos hb] at h
            simp only [Option.some.injEq, Prod.mk.injEq] at h
            obtain ⟨_, hr⟩ := h
            subst hr
            have hgs : (camelGroups (c :: rest).length (c :: rest)).1 ≠ [] := by
              intro hnil
              rw [hnil] at h2
              simp at h2
            exact (camelGroups_spec (c :: rest).length (c :: rest)).2 hgs
          · rw [if_neg hb] at h
            exact absurd h (by simp)
      · rw [if_neg huc] at h
        exact absurd h (by simp)

/-- Fuel adequacy of the quoted-string scanner: any fuel of at least the
input length gives the canonical result. -/
theorem quotedScan_fuel (n : Nat) : ∀ (cs : List Char) (f g : Nat),
    cs.length ≤ n → cs.length ≤ f → cs.length ≤ g →
    quotedScan f cs = quotedScan g cs := by
  induction n with
  | zero =>
    intro cs f g h0 _ _
    have hcs : cs = [] := List.length_eq_zero.mp (Nat.le_zero.mp h0)
    subst hcs
    cases f <;> cases g <;> rfl
  | succ n ih =>
    intro cs f g h0 hf hg
    cases cs with
    | nil => cases f <;> cases g <;> rfl
    | cons c rest =>
      simp only [List.length_cons] at h0 hf hg
      cases f with
      | zero => omega
      | succ f =>
        cases g with
        | zero => omega
        | succ g =>
          simp only [quotedScan]
          by_cases hq : isQuoteChar c
          · rw [if_pos hq, if_pos hq]
            cases hdrop : rest.drop (rest.takeWhile fun x => !isQuoteChar x).length with
            | nil => simp only [hdrop]
            | cons d rest2 =>
              simp only [hdrop]
              have hd := congrArg List.length hdrop
              simp only [List.length_drop, List.length_cons] at hd
              by_cases hb : (rest.takeWhile fun x => !isQuoteChar x).isEmpty
              · rw [if_pos hb, if_pos hb]
                exact ih rest f g (by omega) (by omega) (by omega)
              · rw [if_neg hb, if_neg hb]
                congr 1
                exact ih rest2 f g (by omega) (by omega) (by omega)
          · rw [if_neg hq, if_neg hq]
            exact ih rest f g (by omega) (by omega) (by omega)

/-- Fuel adequacy of the file-path scanner. -/
theorem pathScan_fuel (n : Nat) : ∀ (cs : List Char) (f g : Nat),
    cs.length ≤ n → cs.length ≤ f → cs.length ≤ g →
    pathScan f cs = pathScan g cs := by
  induction n with
  | zero =>
    intro cs f g h0 _ _
    have hcs : cs = [] := List.length_eq_zero.mp (Nat.le_zero.mp h0)
    subst hcs
    cases f <;> cases g <;> rfl
  | succ n ih =>
    intro cs f g h0 hf hg
    cases cs with
    | nil => cases f <;> cases g <;> rfl
    | cons c rest =>
      simp only [List.length_cons] at h0 hf hg
      cases f with
      | zero => omega
      | succ f =>
        cases g with
        | zero => omega
        | succ g =>
          simp only [pathScan]
          cases hm : matchPathAt (c :: rest) with
          | none =>
            simp only [hm]
            exact ih rest f g (by omega) (by omega) (by omega)
          | some pr =>
            obtain ⟨m, rest2⟩ := pr
            simp only [hm]
            have hc := matchPathAt_consumes (c :: rest) m rest2 hm
            simp only [List.length_cons] at hc
            congr 1
            exact ih rest2 f g (by omega) (by omega) (by omega)

/-- Fuel adequacy of the camelCase scanner, for every boundary flag. -/
theorem camelScan_fuel (n : Nat) : ∀ (cs : List Char) (f g : Nat) (b : Bool),
    cs.length ≤ n → cs.length ≤ f → cs.length ≤ g →
    camelScan f b cs = camelScan g b cs := by
  induction n with
  | zero =>
    intro cs f g b h0 _ _
    have hcs : cs = [] := List.length_eq_zero.mp (Nat.le_zero.mp h0)
    subst hcs
    cases f <;> cases g <;> rfl
  | succ n ih =>
    intro cs f g b h0 hf hg
    cases cs with
    | nil => cases f <;> cases g <;> rfl
    | cons c rest =>
      simp only [List.length_cons] at h0 hf hg
      cases f with
      | zero => omega
      | succ f =>
        cases g with
        | zero => omega
        | succ g =>
          simp only [camelScan]
          cases b with
          | false =>
            rw [if_neg (by simp), if_neg (by simp)]
            exact ih rest f g _ (by omega) (by omega) (by omega)
          | true =>
            rw [if_pos rfl, if_pos rfl]
            cases hm : camelMatchAt (c :: rest) with
            | none =>
              simp only [hm]
              exact ih rest f g _ (by omega) (by omega) (by omega)
            | some pr =>
              obtain ⟨m, rest2⟩ := pr
              simp only [hm]
              have hc := camelMatchAt_consumes (c :: rest) m rest2 hm
              simp only [List.length_cons] at hc
              congr 1
              exact ih rest2 f g _ (by omega) (by omega) (by omega)

/-- Fuel adequacy of the word-run scanner. -/
theorem wordRuns_fuel (n : Nat) : ∀ (cs : List Char) (f g : Nat),
    cs.length ≤ n → cs.length ≤ f → cs.length ≤ g →
    wordRuns f cs = wordRuns g cs := by
  induction n with
  | zero =>
    intro cs f g h0 _ _
    have hcs : cs = [] := List.length_eq_zero.mp (Nat.le_zero.mp h0)
    subst hcs
    cases f <;> cases g <;> rfl
  | succ n ih =>
    intro cs f g h0 hf hg
    cases cs with
    | nil => cases f <;> cases g <;> rfl
    | cons c rest =>
      simp only [List.length_cons] at h0 hf hg
      cases f with
      | zero => omega
      | succ f =>
        cases g with
        | zero => omega
        | succ g =>
          simp only [wordRuns]
          by_cases hw : isWordChar c
          · rw [if_pos hw, if_pos hw]
            congr 1
            have hd : (rest.drop (rest.takeWhile isWordChar).length).length
                = rest.length - (rest.takeWhile isWordChar).length := List.length_drop _ _
            exact ih _ f g (by omega) (by omega) (by omega)
          · rw [if_neg hw, if_neg hw]
            exact ih rest f g (by omega) (by omega) (by omega)

/-- Fuel adequacy of the quoted-span remover. -/
theorem removeQuoted_fuel (n : Nat) : ∀ (cs : List Char) (f g : Nat),
    cs.length ≤ n → cs.length ≤ f → cs.length ≤ g →
    removeQuoted f cs = removeQuoted g cs := by
  induction n with
  | zero =>
    intro cs f g h0 _ _
    have hcs : cs = [] := List.length_eq_zero.mp (Nat.le_zero.mp h0)
    subst hcs
    cases f <;> cases g <;> rfl
  | succ n ih =>
    intro cs f g h0 hf hg
    cases cs with
    | nil => cases f <;> cases g <;> rfl
    | cons c rest =>
      simp only [List.length_cons] at h0 hf hg
      cases f with
      | zero => omega
      | succ f =>
        cases g with
        | zero => omega
        | succ g =>
          simp only [removeQuoted]
          by_cases hq : isQuoteChar c
          · rw [if_pos hq, if_pos hq]
            cases hdrop : rest.drop (rest.takeWhile fun x => !isQuoteChar x).length with
            | nil => simp only [hdrop]
            | cons d rest2 =>
              simp only [hdrop]
              have hd := congrArg List.length hdrop
              simp only [List.length_drop, List.length_cons] at hd
              exact ih rest2 f g (by omega) (by omega) (by omega)
          · rw [if_neg hq, if_neg hq]
            congr 1
            exact ih rest f g (by omega) (by omega) (by omega)

/-- Fuel adequacy of the path-span remover. -/
theorem removePaths_fuel (n : Nat) : ∀ (cs : List Char) (f g : Nat),
    cs.length ≤ n → cs.length ≤ f → cs.length ≤ g →
    removePaths f cs = removePaths g cs := by
  induction n with
  | zero =>
    intro cs f g h0 _ _
    have hcs : cs = [] := List.length_eq_zero.mp (Nat.le_zero.mp h0)
    subst hcs
    cases f <;> cases g <;> rfl
  | succ n ih =>
    intro cs f g h0 hf hg
    cases cs with
    | nil => cases f <;> cases g <;> rfl
    | cons c rest =>
      simp only [List.length_cons] at h0 hf hg
      cases f with
      | zero => omega
      | succ f =>
        cases g with
        | zero => omega
        | succ g =>
          simp only [removePaths]
          cases hm : matchPathAt (c :: rest) with
          | none =>
            simp only [hm]
            congr 1
            exact ih rest f g (by omega) (by omega) (by omega)
          | some pr =>
            obtain ⟨m, rest2⟩ := pr
            simp only [hm]
            have hc := matchPathAt_consumes (c :: rest) m rest2 hm
            simp only [List.length_cons] at hc
            exact ih rest2 f g (by omega) (by omega) (by omega)

/-- Fuel adequacy of the whitespace tokenizer. -/
theorem wsTokens_fuel (n : Nat) : ∀ (cs : List Char) (f g : Nat),
    cs.length ≤ n → cs.length ≤ f → cs.length ≤ g →
    wsTokens f cs = wsTokens g cs := by
  induction n with
  | zero =>
    intro cs f g h0 _ _
    have hcs : cs = [] := List.length_eq_zero.mp (Nat.le_zero.mp h0)
    subst hcs
    cases f <;> cases g <;> rfl
  | succ n ih =>
    intro cs f g h0 hf hg
    cases cs with
    | nil => cases f <;> cases g <;> rfl
    | cons c rest =>
      simp only [List.length_cons] at h0 hf hg
      cases f with
      | zero => omega
      | succ f =>
        cases g with
        | zero => omega
        | succ g =>
          simp only [wsTokens]
          by_cases hw : c.isWhitespace
          · rw [if_pos hw, if_pos hw]
            exact ih rest f g (by omega) (by omega) (by omega)
          · rw [if_neg hw, if_neg hw]
            congr 1
            have hd : (rest.drop (rest.takeWhile fun x => !x.isWhitespace).length).length
                = rest.length - (rest.takeWhile fun x => !x.isWhitespace).length :=
              List.length_drop _ _
            exact ih _ f g (by omega) (by omega) (by omega)

/-- Claim C7: extractKeywords is total and deterministic.  Totality is
expressed as fuel adequacy: every fueled scanner of the pipeline returns its
canonical result under any fuel of at least the input length, so the length
fuel passed at every call site never runs out, on any input including the
empty string and arbitrary punctuation.  Determinism is expressed as
extensionality in the query, and the empty query yields the empty result. -/
theorem c7_total_deterministic (cs : List Char) (f : Nat) (hf : cs.length ≤ f)
    (b : Bool) (q1 q2 : String) (hq : q1 = q2) :
    quotedScan f cs = quotedScan cs.length cs ∧
    pathScan f cs = pathScan cs.length cs ∧
    camelScan f b cs = camelScan cs.length b cs ∧
    wordRuns f cs = wordRuns cs.length cs ∧
    removeQuoted f cs = removeQuoted cs.length cs ∧
    removePaths f cs = removePaths cs.length cs ∧
    wsTokens f cs = wsTokens cs.length cs ∧
    extractKeywords q1 = extractKeywords q2 ∧
    extractKeywords "" =
      { keywords := [], quotedStrings := [], filePaths := [],
        identifiers := [], generalTerms := [] } := by
  refine ⟨quotedScan_fuel cs.length cs f cs.length le_rfl hf le_rfl,
    pathScan_fuel cs.length cs f cs.length le_rfl hf le_rfl,
    camelScan_fuel cs.length cs f cs.length b le_rfl hf le_rfl,
    wordRuns_fuel cs.length cs f cs.length le_rfl hf le_rfl,
    removeQuoted_fuel cs.length cs f cs.length le_rfl hf le_rfl,
    removePaths_fuel cs.length cs f cs.length le_rfl hf le_rfl,
    wsTokens_fuel cs.length cs f cs.length le_rfl hf le_rfl,
    by rw [hq], rfl⟩

/-- Witness for C7 at a concrete input, fuel and query. -/
theorem c7_total_deterministic_witness :
    ("a!b".data.length ≤ 9 ∧ ("xY" : String) = "xY") ∧
    (quotedScan 9 "a!b".data = quotedScan "a!b".data.length "a!b".data ∧
     pathScan 9 "a!b".data = pathScan "a!b".data.length "a!b".data ∧
     camelScan 9 true "a!b".data = camelScan "a!b".data.length true "a!b".data ∧
     wordRuns 9 "a!b".data = wordRuns "a!b".data.length "a!b".data ∧
     removeQuoted 9 "a!b".data = removeQuoted "a!b".data.length "a!b".data ∧
     removePaths 9 "a!b".data = removePaths "a!b".data.length "a!b".data ∧
     wsTokens 9 "a!b".data = wsTokens "a!b".data.length "a!b".data ∧
     extractKeywords "xY" = extractKeywords "xY" ∧
     extractKeywords "" =
       { keywords := [], quotedStrings := [], filePaths := [],
         identifiers := [], generalTerms := [] }) :=
  ⟨⟨by decide, rfl⟩,
    c7_total_deterministic "a!b".data 9 (by decide) true "xY" "xY" rfl⟩

/-- Lowering a string preserves its length. -/
theorem lowerStr_length (a : String) : (lowerStr a).length = a.length :=
  List.length_map a.data Char.toLower

/-- The merge loop only appends: the keywords after one pass extend the
keywords before it by a sublist of the processed terms. -/
theorem addUnique_appends (ts : List String) : ∀ (seen ks : List String),
    ∃ sel, (addUnique seen ks ts).2 = ks ++ sel ∧ sel.Sublist ts := by
  induction ts with
  | nil =>
    intro seen ks
    exact ⟨[], by simp [addUnique], List.nil_sublist _⟩
  | cons t ts ih =>
    intro seen ks
    simp only [addUnique]
    by_cases hcond : (!seen.contains (lowerStr t) && (lowerStr t).length > 1)
    · rw [if_pos hcond]
      obtain ⟨sel, hsel, hsub⟩ := ih (lowerStr t :: seen) (ks ++ [t])
      exact ⟨t :: sel, by simpa [List.append_assoc] using hsel, hsub.cons₂ t⟩
    · rw [if_neg hcond]
      obtain ⟨sel, hsel, hsub⟩ := ih seen ks
      exact ⟨sel, hsel, hsub.cons t⟩

/-- The merge invariant: the lowercase form of every appended keyword is
recorded as seen, keywords are pairwise distinct up to lowercasing, and
every appended keyword has length above one. -/
theorem addUnique_invariant (ts : List String) : ∀ (seen ks : List String),
    (∀ a ∈ ks, lowerStr a ∈ seen) →
    List.Pairwise (fun a b => lowerStr a ≠ lowerStr b) ks →
    (∀ a ∈ ks, 1 < a.length) →
    (∀ a ∈ (addUnique seen ks ts).2, lowerStr a ∈ (addUnique seen ks ts).1) ∧
    List.Pairwise (fun a b => lowerStr a ≠ lowerStr b) (addUnique seen ks ts).2 ∧
    (∀ a ∈ (addUnique seen ks ts).2, 1 < a.length) := by
  induction ts with
  | nil =>
    intro seen ks h1 h2 h3
    exact ⟨h1, h2, h3⟩
  | cons t ts ih =>
    intro seen ks h1 h2 h3
    simp only [addUnique]
    by_cases hcond : (!seen.contains (lowerStr t) && (lowerStr t).length > 1)
    · rw [if_pos hcond]
      have hcond2 := hcond
      simp only [Bool.and_eq_true, Bool.not_eq_true', decide_eq_true_eq] at hcond2
      obtain ⟨hseen, hlen⟩ := hcond2
      have hnotseen : lowerStr t ∉ seen := by
        simpa using hseen
      apply ih
      · intro a ha
        rcases List.mem_append.mp ha with ha | ha
        · exact List.mem_cons_of_mem _ (h1 a ha)
        · rw [List.mem_singleton] at ha
          subst ha
          exact List.mem_cons_self _ _
      · refine List.pairwise_append.mpr ⟨h2, List.pairwise_singleton _ _, ?_⟩
        intro a ha b hb
        rw [List.mem_singleton] at hb
        subst hb
        intro hab
        exact hnotseen (hab ▸ h1 a ha)
      · intro a ha
        rcases List.mem_append.mp ha with ha | ha
        · exact h3 a ha
        · rw [List.mem_singleton] at ha
          subst ha
          rw [← lowerStr_length a]
          exact hlen
    · rw [if_neg hcond]
      exact ih seen ks h1 h2 h3

/-- The full merge over four category lists: the result is a sublist of
their concatenation in priority order, pairwise distinct up to lowercasing,
with every entry of length above one. -/
theorem mergeAll_props (qs fp ids gen : List String) :
    let p1 := addUnique [] [] qs
    let p2 := addUnique p1.1 p1.2 fp
    let p3 := addUnique p2.1 p2.2 ids
    let p4 := addUnique p3.1 p3.2 gen
    p4.2.Sublist (qs ++ fp ++ ids ++ gen) ∧
    List.Pairwise (fun a b => lowerStr a ≠ lowerStr b) p4.2 ∧
    (∀ t ∈ p4.2, 1 < t.length) := by
  intro p1 p2 p3 p4
  have i1 := addUnique_invariant qs [] [] (by simp) (by simp) (by simp)
  have i2 := addUnique_invariant fp _ _ i1.1 i1.2.1 i1.2.2
  have i3 := addUnique_invariant ids _ _ i2.1 i2.2.1 i2.2.2
  have i4 := addUnique_invariant gen _ _ i3.1 i3.2.1 i3.2.2
  obtain ⟨s1, e1, b1⟩ := addUnique_appends qs [] []
  obtain ⟨s2, e2, b2⟩ := addUnique_appends fp (addUnique [] [] qs).1
    (addUnique [] [] qs).2
  obtain ⟨s3, e3, b3⟩ := addUnique_appends ids p2.1 p2.2
  obtain ⟨s4, e4, b4⟩ := addUnique_appends gen p3.1 p3.2
  refine ⟨?_, i4.2.1, i4.2.2⟩
  show (addUnique p3.1 p3.2 gen).2.Sublist (qs ++ fp ++ ids ++ gen)
  rw [e4]
  show ((addUnique p2.1 p2.2 ids).2 ++ s4).Sublist (qs ++ fp ++ ids ++ gen)
  rw [e3]
  show (((addUnique p1.1 p1.2 fp).2 ++ s3) ++ s4).Sublist (qs ++ fp ++ ids ++ gen)
  rw [e2]
  show ((((addUnique [] [] qs).2 ++ s2) ++ s3) ++ s4).Sublist (qs ++ fp ++ ids ++ gen)
  rw [e1]
  simp only [List.nil_append]
  exact ((b1.append b2).append b3).append b4

/-- Claim C6: the merged keywords list is built from the four category lists
in strict priority order (it is a sublist of their concatenation in that
order), holds no two entries equal up to lowercasing, and holds no entry of
length at most one. -/
theorem c6_merge_priority (q : String) :
    ((extractKeywords q).keywords).Sublist
      ((extractKeywords q).quotedStrings ++ (extractKeywords q).filePaths
        ++ (extractKeywords q).identifiers ++ (extractKeywords q).generalTerms) ∧
    List.Pairwise (fun a b => lowerStr a ≠ lowerStr b) (extractKeywords q).keywords ∧
    (∀ t ∈ (extractKeywords q).keywords, 1 < t.length) :=
  mergeAll_props (extractQuotedStrings q) (extractFilePaths q)
    (extractIdentifiers q) (extractGeneralTerms q)

/-- First-occurrence deduplication produces a duplicate-free list avoiding
the seen set. -/
theorem dedupFirst_spec (l : List String) : ∀ seen : List String,
    (dedupFirst seen l).Nodup ∧ ∀ x ∈ dedupFirst seen l, x ∉ seen := by
  induction l with
  | nil => intro seen; simp [dedupFirst]
  | cons x xs ih =>
    intro seen
    simp only [dedupFirst]
    by_cases hx : seen.contains x
    · rw [if_pos hx]
      exact ⟨(ih seen).1, fun y hy => (ih seen).2 y hy⟩
    · rw [if_neg hx]
      have hxs := ih (x :: seen)
      constructor
      · rw [List.nodup_cons]
        refine ⟨?_, hxs.1⟩
        intro hmem
        have := hxs.2 x hmem
        simp at this
      · intro y hy
        rcases List.mem_cons.mp hy with rfl | hy
        · simpa using hx
        · intro hseen
          exact hxs.2 y hy (List.mem_cons_of_mem _ hseen)

/-- Claim C10: the generalTerms list is deduplicated as exact strings for
every query, while the identifiers list carries no such guarantee (it has
duplicates on a repeated camelCase token). -/
theorem c10_generalTerms_nodup (q : String) :
    (extractKeywords q).generalTerms.Nodup ∧
    ¬ (extractKeywords "fooBar fooBar").identifiers.Nodup := by
  constructor
  · exact (dedupFirst_spec _ []).1
  · decide

/-- Claim C8: the identifier stage does not recognize kebab-case.  On a
kebab token it returns the empty list (neither the whole token nor its
components), although the documentation of extractIdentifiers announces
kebab-case handling; the snake-case analogue of the same token is split as
announced. -/
theorem c8_kebab_not_recognized :
    extractIdentifiers "foo-bar" = [] ∧
    extractIdentifiers "foo_bar" = ["foo_bar", "foo", "bar"] := by
  exact ⟨by decide, by decide⟩

/-- Claim C9: on the documented example query, the quoted strings are
exactly the one-element list of the quote body, the file paths contain the
path token, and the first merged keyword is the quoted string. -/
theorem c9_keyword_priority_example :
    (extractKeywords "Fix the \"login button\" color in src/components/AuthForm.tsx").quotedStrings
      = ["login button"] ∧
    "src/components/AuthForm.tsx"
      ∈ (extractKeywords "Fix the \"login button\" color in src/components/AuthForm.tsx").filePaths ∧
    (extractKeywords "Fix the \"login button\" color in src/components/AuthForm.tsx").keywords.head?
      = some "login button" := by
  exact ⟨by decide, by decide, by decide⟩

end SmartCoder
